import Mathlib

/-!
Verification development for the hash-to-glob tracking index of
`crates/turborepo-lib/src/globwatcher/mod.rs` (`HashGlobWatcher`).

The Rust code is shallowly embedded: `HashMap` becomes an association list,
`HashSet` becomes a duplicate-free list, and the body of the event loop in
`HashGlobWatcher::watch` (one filesystem-change batch) becomes the pure
function `processBatch`.  A `panic!`/`unwrap` failure is modelled by `none`.
Control messages sent to the event source are modelled by the `Cmd` type.
-/

set_option maxHeartbeats 1000000

namespace GlobWatcher

/-- Association-list lookup; models `HashMap::get` on a map with unique keys. -/
def lookupA {α : Type} : List (String × α) → String → Option α
  | [], _ => none
  | (k', v) :: rest, k => if k' = k then some v else lookupA rest k

/-- Association-list insert-or-replace; models `HashMap::insert` /
`HashMap::entry(..).or_default()` followed by overwriting the value. -/
def insertA {α : Type} : List (String × α) → String → α → List (String × α)
  | [], k, v => [(k, v)]
  | (k', v') :: rest, k, v =>
      if k' = k then (k, v) :: rest else (k', v') :: insertA rest k v

/-- Association-list removal; models `HashMap::remove` (a `HashMap` has at most
one binding per key, so removing every binding of the key is faithful). -/
def removeA {α : Type} (m : List (String × α)) (k : String) : List (String × α) :=
  m.filter fun e => decide (e.1 ≠ k)

/-- `lookupA` with a default empty value; models `Entry::or_default` reads. -/
def lookupD (m : List (String × List String)) (k : String) : List String :=
  (lookupA m k).getD []

/-- Set insertion; models `HashSet::insert`. -/
def insertS (s : List String) (x : String) : List String :=
  if x ∈ s then s else s ++ [x]

/-- Set extension; models `HashSet::extend`. -/
def extendS (s : List String) (xs : List String) : List String :=
  xs.foldl insertS s

/-- Set removal; models `HashSet::remove` (sets hold no duplicates). -/
def removeS (s : List String) (x : String) : List String :=
  s.filter fun y => decide (y ≠ x)

/-- Modelled from the spec: the external Glob Matcher, the pure function
`matches(pattern, relative_path)` provided by the `glob_match` crate (not part
of this repository).  `*` matches any run of non-separator characters, `?` one
non-separator character, every other character matches literally.  Fuel-based
recursion; the fuel `pattern.length + path.length + 1` always suffices because
every step consumes at least one character of the pattern or of the path. -/
def gmFuel : Nat → List Char → List Char → Bool
  | 0, _, _ => false
  | _ + 1, [], [] => true
  | fuel + 1, '*' :: ps, [] => gmFuel fuel ps []
  | fuel + 1, '*' :: ps, c :: cs =>
      gmFuel fuel ps (c :: cs) || (decide (c ≠ '/') && gmFuel fuel ('*' :: ps) cs)
  | fuel + 1, '?' :: ps, c :: cs => decide (c ≠ '/') && gmFuel fuel ps cs
  | fuel + 1, p :: ps, c :: cs => decide (p = c) && gmFuel fuel ps cs
  | _ + 1, _ :: _, [] => false
  | _ + 1, [], _ :: _ => false

/-- Modelled from the spec: entry point of the external Glob Matcher. -/
def globMatch (pat s : String) : Bool :=
  gmFuel (pat.length + s.length + 1) pat.toList s.toList

/-- `Glob` (mod.rs lines 24-28): the per-hash pattern sets. -/
structure Glob where
  «include» : List String
  exclude : List String
  deriving DecidableEq

/-- The two shared maps of `HashGlobWatcher` (mod.rs lines 17-22): the
tracking index `hash_globs : hash → Glob` and `glob_status`, a map from
`String` to `HashSet<String>` (see `watch_globs` for how it is populated). -/
structure HashGlobWatcher where
  hash_globs : List (String × Glob)
  glob_status : List (String × List String)
  deriving DecidableEq

/-- The watcher state produced by `HashGlobWatcher::new`: both maps default
to empty. -/
def emptyW : HashGlobWatcher := { hash_globs := [], glob_status := [] }

/-- Control messages sent to the event source through `GlobSender`
(`config.include`, `config.exclude`, `config.flush`). -/
inductive Cmd
  | include_pattern (glob : String)
  | exclude_pattern (glob : String)
  | flush
  deriving DecidableEq

/-- A changed path of one filesystem event, as seen by
`path.strip_prefix(&root_folder)` (mod.rs line 73): either outside the watched
root (`strip_prefix` fails), or relative and representable as text (`rel s`
with `s` the relative path), or relative but not valid UTF-8 (`to_str()`
returns `None`). -/
inductive EventPath
  | outside
  | rel (s : String)
  | relNonUtf8
  deriving DecidableEq

/-- `HashGlobWatcher::watch_globs` (mod.rs lines 133-150), state part: extend
the `glob_status` entry keyed by `hash` with the `include` patterns (line 146:
`map.entry(hash.clone()).or_default().extend(include.clone())`), then replace
the hash's entry in `hash_globs` (line 149). -/
def watch_globs (st : HashGlobWatcher) (hash : String)
    (inc exc : List String) : HashGlobWatcher :=
  { glob_status := insertA st.glob_status hash (extendS (lookupD st.glob_status hash) inc)
    hash_globs := insertA st.hash_globs hash ⟨inc, exc⟩ }

/-- The control messages sent by `watch_globs` before touching the maps
(mod.rs lines 139-143): one flush, then one include per pattern. -/
def watch_globsCmds (inc : List String) : List Cmd :=
  Cmd.flush :: inc.map Cmd.include_pattern

/-- `HashGlobWatcher::changed_globs` (mod.rs lines 154-169): retain the
candidates still in the hash's include set; an unknown hash returns the
candidates unchanged. -/
def changed_globs (st : HashGlobWatcher) (hash : String)
    (candidates : List String) : List String :=
  match lookupA st.hash_globs hash with
  | some glob => candidates.filter fun c => decide (c ∈ glob.«include»)
  | none => candidates

/-- The include commands issued when `watch` starts (mod.rs lines 46-65):
one per pattern currently in some tracked hash's include set. -/
def watchStartCmds (st : HashGlobWatcher) : List Cmd :=
  (st.hash_globs.foldr (fun e acc => e.2.«include» ++ acc) []).map Cmd.include_pattern

/-- One member step of the inner loop of a change batch (mod.rs lines
91-105), for entry key `glob`, matching relative path `q` and member `hash`:
if `hash_globs.get_mut(hash)` exists and some exclude pattern of that entry
matches `q` (lines 91-96), remove `glob` from the entry's include set (line
102, `HashSet::remove` is the filter) and drop the entry if the include set
became empty (lines 103-105).  The returned boolean reports whether this
retirement branch fired (in which case lines 108-109 push `glob` and
`(hash, glob)`). -/
def scanStep (m : String → String → Bool) (glob q hash : String)
    (hg : List (String × Glob)) : List (String × Glob) × Bool :=
  match lookupA hg hash with
  | some globs =>
    if globs.exclude.any (fun f => m f q) then
      (if (globs.«include».filter fun x => decide (x ≠ glob)).isEmpty
        then removeA hg hash
        else insertA hg hash ⟨globs.«include».filter fun x => decide (x ≠ glob), globs.exclude⟩,
       true)
    else (hg, false)
  | none => (hg, false)

/-- Inner loop of one change batch (mod.rs lines 90-110): walk the member
set `hash_status` of one `glob_status` entry `(glob, hash_status)` against
one matching relative path `q`, applying `scanStep` to each member and
recording `glob` for the unsubscribe list `ex` and `(hash, glob)` for the
`glob_status` cleanup list `cl` whenever the retirement branch fired. -/
def scanHashes (m : String → String → Bool) (glob q : String) :
    List String → List (String × Glob) → List String → List (String × String) →
    List (String × Glob) × List String × List (String × String)
  | [], hg, ex, cl => (hg, ex, cl)
  | hash :: rest, hg, ex, cl =>
    scanHashes m glob q rest (scanStep m glob q hash hg).1
      (if (scanStep m glob q hash hg).2 then ex ++ [glob] else ex)
      (if (scanStep m glob q hash hg).2 then cl ++ [(hash, glob)] else cl)

/-- Outer loop of one change batch (mod.rs lines 83-111): the cartesian
product of the `glob_status` entries with the relative changed paths, filtered
by `glob_match(glob, path.to_str().unwrap())`.  A path that is not valid
UTF-8 makes `to_str().unwrap()` panic, modelled by `none`. -/
def scanPairs (m : String → String → Bool) :
    List ((String × List String) × Option String) →
    List (String × Glob) → List String → List (String × String) →
    Option (List (String × Glob) × List String × List (String × String))
  | [], hg, ex, cl => some (hg, ex, cl)
  | ((glob, hash_status), p) :: rest, hg, ex, cl =>
    match p with
    | none => none
    | some q =>
      if m glob q then
        scanPairs m rest (scanHashes m glob q hash_status hg ex cl).1
          (scanHashes m glob q hash_status hg ex cl).2.1
          (scanHashes m glob q hash_status hg ex cl).2.2
      else scanPairs m rest hg ex cl

/-- One step of the index cleanup (mod.rs lines 113-123): remove `glob` from
the `glob_status` entry keyed by `hash` (if any) and drop the entry when it
becomes empty. -/
def clearStep (gs : List (String × List String)) (hash glob : String) :
    List (String × List String) :=
  match lookupA gs hash with
  | some s =>
    if (s.filter fun y => decide (y ≠ glob)).isEmpty then removeA gs hash
    else insertA gs hash (s.filter fun y => decide (y ≠ glob))
  | none => gs

/-- Index cleanup after the scan (mod.rs lines 113-124): apply `clearStep`
to each recorded `(hash, glob)` pair in order. -/
def clearGlobStatus : List (String × List String) → List (String × String) →
    List (String × List String)
  | gs, [] => gs
  | gs, (hash, glob) :: rest => clearGlobStatus (clearStep gs hash glob) rest

/-- The relative changed paths of a batch, in order, as produced by
`filter_map(|path| path.strip_prefix(&root_folder).ok())` (mod.rs lines
70-73): paths outside the root are dropped; `some s` is a UTF-8 relative
path, `none` a relative path `to_str()` cannot represent. -/
def relPathsOf (paths : List EventPath) : List (Option String) :=
  paths.filterMap fun p => match p with
    | EventPath.outside => none
    | EventPath.rel s => some (some s)
    | EventPath.relNonUtf8 => some none

/-- The UTF-8 relative changed paths of a batch. -/
def relStrings (paths : List EventPath) : List String :=
  paths.filterMap fun p => match p with
    | EventPath.rel s => some s
    | _ => none

/-- The pairs iterated by `glob_status.iter().cartesian_product(paths)`
(mod.rs lines 83-85), entry-major. -/
def statusPairs (gs : List (String × List String)) (rels : List (Option String)) :
    List ((String × List String) × Option String) :=
  match gs with
  | [] => []
  | e :: rest => rels.map (fun p => (e, p)) ++ statusPairs rest rels

/-- One iteration of the event loop in `HashGlobWatcher::watch` (mod.rs lines
67-130) for one change batch: scan all `(glob_status entry, path)` pairs,
then clean up `glob_status` from the recorded `(hash, glob)` pairs, then emit
one exclude command per recorded pattern (lines 127-129).  `none` models a
panic of the loop (the `unwrap` on `to_str`). -/
def processBatch (m : String → String → Bool) (st : HashGlobWatcher)
    (paths : List EventPath) : Option (HashGlobWatcher × List Cmd) :=
  (scanPairs m (statusPairs st.glob_status (relPathsOf paths)) st.hash_globs [] []).map
    fun r =>
      ({ hash_globs := r.1, glob_status := clearGlobStatus st.glob_status r.2.2 },
       r.2.1.map Cmd.exclude_pattern)

/-- `hash` currently tracks pattern `p`: its `hash_globs` entry exists and
`p` is in its include set. -/
def tracksB (hg : List (String × Glob)) (hash p : String) : Bool :=
  match lookupA hg hash with
  | some g => decide (p ∈ g.«include»)
  | none => false

/-- Every tracked entry of `hash_globs` has a non-empty include set. -/
def allNonempty (hg : List (String × Glob)) : Prop :=
  ∀ h g, lookupA hg h = some g → g.«include» ≠ []

/-- The exclude set of `hash`'s entry (if any) has a pattern matching `q`;
the guard of the retirement branch (mod.rs lines 91-96). -/
def excludeCond (m : String → String → Bool) (hg : List (String × Glob))
    (hash q : String) : Prop :=
  ∀ g, lookupA hg hash = some g → ∃ f ∈ g.exclude, m f q = true

/-- `hg'` only shrinks `hg`: every entry of `hg'` existed in `hg` with the
same exclude set and a superset include set. -/
def shrinks (hg' hg : List (String × Glob)) : Prop :=
  ∀ h g', lookupA hg' h = some g' →
    ∃ g, lookupA hg h = some g ∧ g'.exclude = g.exclude ∧
      ∀ x ∈ g'.«include», x ∈ g.«include»

/-- `gs'` only shrinks `gs`: every entry of `gs'` existed in `gs` with a
superset member set. -/
def shrinksS (gs' gs : List (String × List String)) : Prop :=
  ∀ k s', lookupA gs' k = some s' →
    ∃ s, lookupA gs k = some s ∧ ∀ x ∈ s', x ∈ s

/-- The state of the spec's end-to-end scenario: hash `h1` registered with
include `dist/*.css` and exclude `dist/build.log`. -/
def stC3 : HashGlobWatcher := watch_globs emptyW "h1" ["dist/*.css"] ["dist/build.log"]

/-- A watcher with one registration, used to exhibit the `to_str().unwrap()`
panic on a non-UTF-8 path. -/
def stC5 : HashGlobWatcher := watch_globs emptyW "h1" ["a"] []

/-- A watcher in which pattern `g1` is tracked by the two hashes `h` and
`h2`, and a `glob_status` entry keyed `g1` selects hash `h`, whose exclude
pattern `g*` matches the path `g1`. -/
def stC6 : HashGlobWatcher :=
  watch_globs (watch_globs (watch_globs emptyW "g1" ["h"] []) "h" ["g1", "p"] ["g*"]) "h2" ["g1"] []

/-- The state after delivering the batch `{g1}` to `stC6`: hash `h` has
retired `g1`, hash `h2` still tracks it. -/
def stC6after : HashGlobWatcher :=
  { hash_globs := [("g1", ⟨["h"], []⟩), ("h", ⟨["p"], ["g*"]⟩), ("h2", ⟨["g1"], []⟩)]
    glob_status := [("g1", ["h"]), ("h", ["p"]), ("h2", ["g1"])] }

/-! ### Lemmas about the association-list and set operations -/

theorem lookupA_insertA_self {α : Type} (m : List (String × α)) (k : String) (v : α) :
    lookupA (insertA m k v) k = some v := by
  induction m with
  | nil => simp [insertA, lookupA]
  | cons e rest ih =>
    obtain ⟨k', v'⟩ := e
    by_cases hk : k' = k
    · subst hk; simp [insertA, lookupA]
    · simp [insertA, lookupA, hk, ih]

theorem lookupA_insertA_ne {α : Type} (m : List (String × α)) (k k' : String) (v : α)
    (h : k ≠ k') : lookupA (insertA m k v) k' = lookupA m k' := by
  induction m with
  | nil => simp [insertA, lookupA, h]
  | cons e rest ih =>
    obtain ⟨k'', v''⟩ := e
    by_cases hk : k'' = k
    · subst hk; simp [insertA, lookupA, h]
    · simp [insertA, lookupA, hk, ih]

theorem lookupA_removeA_self {α : Type} (m : List (String × α)) (k : String) :
    lookupA (removeA m k) k = none := by
  induction m with
  | nil => simp [removeA, lookupA]
  | cons e rest ih =>
    obtain ⟨k', v'⟩ := e
    by_cases hk : k' = k
    · subst hk; simpa [removeA, List.filter] using ih
    · simpa [removeA, List.filter, hk, lookupA] using ih

theorem lookupA_removeA_ne {α : Type} (m : List (String × α)) (k k' : String)
    (h : k ≠ k') : lookupA (removeA m k) k' = lookupA m k' := by
  induction m with
  | nil => simp [removeA, lookupA]
  | cons e rest ih =>
    obtain ⟨k'', v''⟩ := e
    by_cases hk : k'' = k
    · subst hk; simpa [removeA, List.filter, lookupA, h] using ih
    · by_cases hk' : k'' = k'
      · subst hk'; simp [removeA, List.filter, hk, lookupA]
      · simpa [removeA, List.filter, hk, hk', lookupA] using ih

theorem mem_insertA {α : Type} {e : String × α} {m : List (String × α)}
    {k : String} {v : α} (h : e ∈ insertA m k v) : e ∈ m ∨ e = (k, v) := by
  induction m with
  | nil => simpa [insertA] using h
  | cons e' rest ih =>
    obtain ⟨k', v'⟩ := e'
    by_cases hk : k' = k
    · subst hk
      rcases (by simpa [insertA] using h : e = (k', v) ∨ e ∈ rest) with h1 | h1
      · exact Or.inr h1
      · exact Or.inl (List.mem_cons_of_mem _ h1)
    · rcases (by simpa [insertA, hk] using h : e = (k', v') ∨ e ∈ insertA rest k v) with h1 | h1
      · exact Or.inl (by simp [h1])
      · rcases ih h1 with h2 | h2
        · exact Or.inl (List.mem_cons_of_mem _ h2)
        · exact Or.inr h2

theorem mem_removeA {α : Type} {e : String × α} {m : List (String × α)} {k : String}
    (h : e ∈ removeA m k) : e ∈ m :=
  (List.mem_filter.mp h).1

theorem mem_insertS_left {s : List String} {x y : String} (h : x ∈ s) :
    x ∈ insertS s y := by
  by_cases hy : y ∈ s <;> simp [insertS, hy, h]

theorem mem_extendS_left {s : List String} (xs : List String) {x : String} (h : x ∈ s) :
    x ∈ extendS s xs := by
  induction xs generalizing s with
  | nil => simpa [extendS] using h
  | cons y ys ih => exact ih (mem_insertS_left h)

theorem tracksB_true_iff {hg : List (String × Glob)} {h p : String} :
    tracksB hg h p = true ↔ ∃ g, lookupA hg h = some g ∧ p ∈ g.«include» := by
  unfold tracksB
  cases hl : lookupA hg h with
  | none => simp
  | some g => simp

/-! ### Shrinking lemmas for the batch scan -/

theorem shrinks_refl (hg : List (String × Glob)) : shrinks hg hg :=
  fun _ g' hl => ⟨g', hl, rfl, fun _ hx => hx⟩

theorem shrinks_trans {hg3 hg2 hg1 : List (String × Glob)}
    (h32 : shrinks hg3 hg2) (h21 : shrinks hg2 hg1) : shrinks hg3 hg1 := by
  intro h g' hl
  obtain ⟨g2, hl2, hex2, hinc2⟩ := h32 h g' hl
  obtain ⟨g1, hl1, hex1, hinc1⟩ := h21 h g2 hl2
  exact ⟨g1, hl1, hex2.trans hex1, fun x hx => hinc1 x (hinc2 x hx)⟩

theorem tracksB_of_shrinks {hg' hg : List (String × Glob)} (hsh : shrinks hg' hg)
    {h p : String} (ht : tracksB hg' h p = true) : tracksB hg h p = true := by
  obtain ⟨g', hl', hp'⟩ := tracksB_true_iff.mp ht
  obtain ⟨g, hl, _, hinc⟩ := hsh h g' hl'
  exact tracksB_true_iff.mpr ⟨g, hl, hinc p hp'⟩

theorem tracksB_false_of_shrinks {hg' hg : List (String × Glob)} (hsh : shrinks hg' hg)
    {h p : String} (ht : tracksB hg h p = false) : tracksB hg' h p = false := by
  cases ht' : tracksB hg' h p with
  | false => rfl
  | true => rw [tracksB_of_shrinks hsh ht'] at ht; simp at ht

theorem excludeCond_of_shrinks {m : String → String → Bool}
    {hg' hg : List (String × Glob)} (hsh : shrinks hg' hg) {h q : String}
    (hc : excludeCond m hg h q) : excludeCond m hg' h q := by
  intro g' hl'
  obtain ⟨g, hl, hex, _⟩ := hsh h g' hl'
  obtain ⟨f, hf, hmf⟩ := hc g hl
  exact ⟨f, by rw [hex]; exact hf, hmf⟩

theorem shrinks_removeA (hg : List (String × Glob)) (k : String) :
    shrinks (removeA hg k) hg := by
  intro h g' hl
  by_cases hk : k = h
  · subst hk; rw [lookupA_removeA_self] at hl; cases hl
  · rw [lookupA_removeA_ne _ _ _ hk] at hl; exact ⟨g', hl, rfl, fun _ hx => hx⟩

theorem shrinks_insertA (hg : List (String × Glob)) (k : String) (v : Glob) {g0 : Glob}
    (hl : lookupA hg k = some g0) (hex : v.exclude = g0.exclude)
    (hinc : ∀ x ∈ v.«include», x ∈ g0.«include») : shrinks (insertA hg k v) hg := by
  intro h g' hl'
  by_cases hk : k = h
  · subst hk
    rw [lookupA_insertA_self] at hl'
    obtain rfl : v = g' := by injection hl'
    exact ⟨g0, hl, hex, hinc⟩
  · rw [lookupA_insertA_ne _ _ _ _ hk] at hl'
    exact ⟨g', hl', rfl, fun _ hx => hx⟩

/-! ### Lemmas about one member step of the scan -/

theorem scanStep_eq_none {m : String → String → Bool} {glob q hash : String}
    {hg : List (String × Glob)} (hl : lookupA hg hash = none) :
    scanStep m glob q hash hg = (hg, false) := by
  unfold scanStep; rw [hl]

theorem scanStep_eq_some {m : String → String → Bool} {glob q hash : String}
    {hg : List (String × Glob)} {globs : Glob} (hl : lookupA hg hash = some globs) :
    scanStep m glob q hash hg =
      (if globs.exclude.any (fun f => m f q) then
        (if (globs.«include».filter fun x => decide (x ≠ glob)).isEmpty
          then removeA hg hash
          else insertA hg hash ⟨globs.«include».filter fun x => decide (x ≠ glob), globs.exclude⟩,
         true)
       else (hg, false)) := by
  unfold scanStep; rw [hl]

theorem scanStep_shrinks (m : String → String → Bool) (glob q hash : String)
    (hg : List (String × Glob)) : shrinks (scanStep m glob q hash hg).1 hg := by
  cases hl : lookupA hg hash with
  | none => rw [scanStep_eq_none hl]; exact shrinks_refl hg
  | some globs =>
    rw [scanStep_eq_some hl]
    split_ifs with ha he
    · exact shrinks_removeA hg hash
    · exact shrinks_insertA hg hash _ hl rfl (fun x hx => (List.mem_filter.mp hx).1)
    · exact shrinks_refl hg

theorem scanStep_lookup_ne (m : String → String → Bool) (glob q hash : String)
    (hg : List (String × Glob)) {h : String} (hne : hash ≠ h) :
    lookupA (scanStep m glob q hash hg).1 h = lookupA hg h := by
  cases hl : lookupA hg hash with
  | none => rw [scanStep_eq_none hl]
  | some globs =>
    rw [scanStep_eq_some hl]
    split_ifs with ha he
    · exact lookupA_removeA_ne _ _ _ hne
    · exact lookupA_insertA_ne _ _ _ _ hne
    · rfl

theorem scanStep_not_fired {m : String → String → Bool} {glob q hash : String}
    {hg : List (String × Glob)} (hf : (scanStep m glob q hash hg).2 = false) :
    (scanStep m glob q hash hg).1 = hg := by
  cases hl : lookupA hg hash with
  | none => rw [scanStep_eq_none hl]
  | some globs =>
    rw [scanStep_eq_some hl] at hf ⊢
    split_ifs at hf ⊢ with ha
    · rfl

theorem scanStep_fired_iff {m : String → String → Bool} {glob q hash : String}
    {hg : List (String × Glob)} :
    (scanStep m glob q hash hg).2 = true ↔
      ∃ g, lookupA hg hash = some g ∧ ∃ f ∈ g.exclude, m f q = true := by
  cases hl : lookupA hg hash with
  | none => rw [scanStep_eq_none hl]; simp
  | some globs =>
    rw [scanStep_eq_some hl]
    by_cases ha : globs.exclude.any (fun f => m f q) = true
    · rw [if_pos ha]
      simp only [List.any_eq_true] at ha
      constructor
      · intro _
        exact ⟨globs, rfl, ha⟩
      · intro _
        by_cases he : (globs.«include».filter fun x => decide (x ≠ glob)).isEmpty = true
        · rw [if_pos he]
        · rw [if_neg he]
    · rw [if_neg ha]
      simp only [List.any_eq_true] at ha
      constructor
      · intro hcon; cases hcon
      · rintro ⟨g, hg', f, hf, hmf⟩
        obtain rfl : globs = g := by injection hg'
        exact absurd ⟨f, hf, hmf⟩ ha

theorem scanStep_tracks_other {m : String → String → Bool} {glob q hash : String}
    {hg : List (String × Glob)} {p : String} (hne : p ≠ glob) :
    tracksB (scanStep m glob q hash hg).1 hash p = tracksB hg hash p := by
  cases hl : lookupA hg hash with
  | none => rw [scanStep_eq_none hl]
  | some globs =>
    rw [scanStep_eq_some hl]
    split_ifs with ha he
    · have hLHS : tracksB (removeA hg hash) hash p = false := by
        unfold tracksB; rw [lookupA_removeA_self]
      have hmem : p ∉ globs.«include» := by
        intro hp
        have := List.filter_eq_nil_iff.mp (List.isEmpty_iff.mp he) p hp
        simp only [decide_eq_true_eq] at this
        exact this hne
      have hRHS : tracksB hg hash p = false := by
        unfold tracksB; rw [hl]; simpa using hmem
      rw [hLHS, hRHS]
    · unfold tracksB
      rw [lookupA_insertA_self, hl]
      simp [List.mem_filter, hne]
    · rfl

theorem scanStep_glob_killed {m : String → String → Bool} {glob q hash : String}
    {hg : List (String × Glob)} (hf : (scanStep m glob q hash hg).2 = true) :
    tracksB (scanStep m glob q hash hg).1 hash glob = false := by
  cases hl : lookupA hg hash with
  | none => rw [scanStep_eq_none hl] at hf; cases hf
  | some globs =>
    rw [scanStep_eq_some hl] at hf ⊢
    split_ifs at hf ⊢ with ha he
    · unfold tracksB; rw [lookupA_removeA_self]
    · unfold tracksB
      rw [lookupA_insertA_self]
      simp [List.mem_filter]

theorem scanStep_keyNonempty {m : String → String → Bool} {glob q hash : String}
    {hg : List (String × Glob)} {h : String}
    (hne : ∀ g, lookupA hg h = some g → g.«include» ≠ []) :
    ∀ g, lookupA (scanStep m glob q hash hg).1 h = some g → g.«include» ≠ [] := by
  intro g hlg
  by_cases hh : hash = h
  · subst hh
    cases hl : lookupA hg hash with
    | none => rw [scanStep_eq_none hl] at hlg; exact hne g hlg
    | some globs =>
      rw [scanStep_eq_some hl] at hlg
      split_ifs at hlg with ha he
      · rw [lookupA_removeA_self] at hlg
        cases hlg
      · rw [lookupA_insertA_self] at hlg
        obtain rfl : (⟨globs.«include».filter fun x => decide (x ≠ glob), globs.exclude⟩ :
            Glob) = g := by injection hlg
        intro hcon
        rw [show (⟨globs.«include».filter fun x => decide (x ≠ glob), globs.exclude⟩ :
          Glob).«include» = globs.«include».filter (fun x => decide (x ≠ glob)) from rfl] at hcon
        rw [List.isEmpty_iff] at he
        exact he hcon
      · exact hne g hlg
  · rw [scanStep_lookup_ne m glob q hash hg hh] at hlg
    exact hne g hlg

/-! ### Lemmas about the inner scan loop -/

theorem scanHashes_cons (m : String → String → Bool) (glob q hash : String)
    (rest : List String) (hg : List (String × Glob)) (ex : List String)
    (cl : List (String × String)) :
    scanHashes m glob q (hash :: rest) hg ex cl =
      scanHashes m glob q rest (scanStep m glob q hash hg).1
        (if (scanStep m glob q hash hg).2 then ex ++ [glob] else ex)
        (if (scanStep m glob q hash hg).2 then cl ++ [(hash, glob)] else cl) := rfl

theorem scanHashes_shrinks (m : String → String → Bool) (glob q : String) :
    ∀ (hs : List String) (hg : List (String × Glob)) (ex : List String)
      (cl : List (String × String)), shrinks (scanHashes m glob q hs hg ex cl).1 hg := by
  intro hs
  induction hs with
  | nil => intro hg ex cl; exact shrinks_refl hg
  | cons hash rest ih =>
    intro hg ex cl
    rw [scanHashes_cons]
    exact shrinks_trans (ih _ _ _) (scanStep_shrinks m glob q hash hg)

theorem scanHashes_ex_mono (m : String → String → Bool) (glob q : String) :
    ∀ (hs : List String) (hg : List (String × Glob)) (ex : List String)
      (cl : List (String × String)) {x : String},
      x ∈ ex → x ∈ (scanHashes m glob q hs hg ex cl).2.1 := by
  intro hs
  induction hs with
  | nil => intro hg ex cl x hx; exact hx
  | cons hash rest ih =>
    intro hg ex cl x hx
    rw [scanHashes_cons]
    refine ih _ _ _ ?_
    by_cases hf : (scanStep m glob q hash hg).2 = true
    · rw [if_pos hf]; exact List.mem_append_left _ hx
    · rw [if_neg hf]; exact hx

theorem scanHashes_forward (m : String → String → Bool) (glob q : String) :
    ∀ (hs : List String) (hg : List (String × Glob)) (ex : List String)
      (cl : List (String × String)) (h p : String),
      tracksB hg h p = true →
      tracksB (scanHashes m glob q hs hg ex cl).1 h p = false →
      p = glob ∧ h ∈ hs ∧ ∃ g, lookupA hg h = some g ∧ ∃ f ∈ g.exclude, m f q = true := by
  intro hs
  induction hs with
  | nil =>
    intro hg ex cl h p htr hkill
    have hkill' : tracksB hg h p = false := hkill
    rw [htr] at hkill'; simp at hkill'
  | cons hash rest ih =>
    intro hg ex cl h p htr hkill
    rw [scanHashes_cons] at hkill
    by_cases hh : hash = h
    · subst hh
      by_cases hpg : p = glob
      · subst hpg
        cases hfired : (scanStep m p q hash hg).2 with
        | true =>
          obtain ⟨g, hlg, hcond⟩ := scanStep_fired_iff.mp hfired
          exact ⟨rfl, List.mem_cons_self _ _, g, hlg, hcond⟩
        | false =>
          rw [scanStep_not_fired hfired] at hkill
          obtain ⟨_, hmem, hrest⟩ := ih _ _ _ hash p htr hkill
          exact ⟨rfl, List.mem_cons_of_mem _ hmem, hrest⟩
      · have htr1 : tracksB (scanStep m glob q hash hg).1 hash p = true := by
          rw [scanStep_tracks_other hpg]; exact htr
        obtain ⟨hpg', _, _⟩ := ih _ _ _ hash p htr1 hkill
        exact absurd hpg' hpg
    · have htr1 : tracksB (scanStep m glob q hash hg).1 h p = true := by
        unfold tracksB
        rw [scanStep_lookup_ne m glob q hash hg hh]
        exact htr
      obtain ⟨hpg, hmem, g, hlg, hcond⟩ := ih _ _ _ h p htr1 hkill
      rw [scanStep_lookup_ne m glob q hash hg hh] at hlg
      exact ⟨hpg, List.mem_cons_of_mem _ hmem, g, hlg, hcond⟩

theorem scanHashes_kill (m : String → String → Bool) (glob q : String) :
    ∀ (hs : List String) (hg : List (String × Glob)) (ex : List String)
      (cl : List (String × String)) (h : String),
      h ∈ hs → excludeCond m hg h q →
      tracksB (scanHashes m glob q hs hg ex cl).1 h glob = false := by
  intro hs
  induction hs with
  | nil => intro hg ex cl h hmem _; cases hmem
  | cons hash rest ih =>
    intro hg ex cl h hmem hcond
    rw [scanHashes_cons]
    by_cases hh : hash = h
    · subst hh
      have hdead : tracksB (scanStep m glob q hash hg).1 hash glob = false := by
        cases hfired : (scanStep m glob q hash hg).2 with
        | true => exact scanStep_glob_killed hfired
        | false =>
          rw [scanStep_not_fired hfired]
          cases hl : lookupA hg hash with
          | none => unfold tracksB; rw [hl]
          | some g =>
            exfalso
            obtain ⟨f, hf, hmf⟩ := hcond g hl
            have hyes : (scanStep m glob q hash hg).2 = true :=
              scanStep_fired_iff.mpr ⟨g, hl, f, hf, hmf⟩
            rw [hfired] at hyes; cases hyes
      exact tracksB_false_of_shrinks (scanHashes_shrinks m glob q rest _ _ _) hdead
    · have hmem' : h ∈ rest := by
        cases hmem with
        | head => exact absurd rfl hh
        | tail _ h' => exact h'
      exact ih _ _ _ h hmem'
        (excludeCond_of_shrinks (scanStep_shrinks m glob q hash hg) hcond)

theorem scanHashes_kill_pushes (m : String → String → Bool) (glob q : String) :
    ∀ (hs : List String) (hg : List (String × Glob)) (ex : List String)
      (cl : List (String × String)) (h p : String),
      tracksB hg h p = true →
      tracksB (scanHashes m glob q hs hg ex cl).1 h p = false →
      p ∈ (scanHashes m glob q hs hg ex cl).2.1 := by
  intro hs
  induction hs with
  | nil =>
    intro hg ex cl h p htr hkill
    have hkill' : tracksB hg h p = false := hkill
    rw [htr] at hkill'; simp at hkill'
  | cons hash rest ih =>
    intro hg ex cl h p htr hkill
    rw [scanHashes_cons] at hkill ⊢
    by_cases hfired : (scanStep m glob q hash hg).2 = true
    · simp only [if_pos hfired] at hkill ⊢
      cases htr1 : tracksB (scanStep m glob q hash hg).1 h p with
      | true => exact ih _ _ _ h p htr1 hkill
      | false =>
        by_cases hh : hash = h
        · subst hh
          by_cases hpg : p = glob
          · subst hpg
            exact scanHashes_ex_mono m p q rest _ _ _ (by simp)
          · rw [scanStep_tracks_other hpg] at htr1
            rw [htr] at htr1; simp at htr1
        · have heq : tracksB (scanStep m glob q hash hg).1 h p = tracksB hg h p := by
            unfold tracksB; rw [scanStep_lookup_ne m glob q hash hg hh]
          rw [heq, htr] at htr1; simp at htr1
    · have hfired2 : (scanStep m glob q hash hg).2 = false := by
        cases hval : (scanStep m glob q hash hg).2 with
        | false => rfl
        | true => exact absurd hval hfired
      simp only [if_neg hfired] at hkill ⊢
      rw [scanStep_not_fired hfired2] at hkill ⊢
      exact ih _ _ _ h p htr hkill

theorem scanHashes_keyNonempty (m : String → String → Bool) (glob q : String) :
    ∀ (hs : List String) (hg : List (String × Glob)) (ex : List String)
      (cl : List (String × String)) {h : String},
      (∀ g, lookupA hg h = some g → g.«include» ≠ []) →
      ∀ g, lookupA (scanHashes m glob q hs hg ex cl).1 h = some g → g.«include» ≠ [] := by
  intro hs
  induction hs with
  | nil => intro hg ex cl h hne; exact hne
  | cons hash rest ih =>
    intro hg ex cl h hne
    rw [scanHashes_cons]
    exact ih _ _ _ (scanStep_keyNonempty hne)

/-! ### Lemmas about the outer scan loop -/

theorem scanPairs_nil (m : String → String → Bool) (hg : List (String × Glob))
    (ex : List String) (cl : List (String × String)) :
    scanPairs m [] hg ex cl = some (hg, ex, cl) := rfl

theorem scanPairs_cons_none (m : String → String → Bool) (e : String × List String)
    (rest : List ((String × List String) × Option String)) (hg : List (String × Glob))
    (ex : List String) (cl : List (String × String)) :
    scanPairs m ((e, none) :: rest) hg ex cl = none := rfl

theorem scanPairs_cons_some (m : String → String → Bool) (glob : String)
    (hs0 : List String) (q : String)
    (rest : List ((String × List String) × Option String)) (hg : List (String × Glob))
    (ex : List String) (cl : List (String × String)) :
    scanPairs m (((glob, hs0), some q) :: rest) hg ex cl =
      if m glob q then
        scanPairs m rest (scanHashes m glob q hs0 hg ex cl).1
          (scanHashes m glob q hs0 hg ex cl).2.1
          (scanHashes m glob q hs0 hg ex cl).2.2
      else scanPairs m rest hg ex cl := rfl

theorem scanPairs_shrinks (m : String → String → Bool) :
    ∀ (pairs : List ((String × List String) × Option String))
      (hg : List (String × Glob)) (ex : List String) (cl : List (String × String)) r,
      scanPairs m pairs hg ex cl = some r → shrinks r.1 hg := by
  intro pairs
  induction pairs with
  | nil =>
    intro hg ex cl r hr
    rw [scanPairs_nil] at hr
    obtain rfl : (hg, ex, cl) = r := by injection hr
    exact shrinks_refl hg
  | cons pr rest ih =>
    obtain ⟨⟨glob, hs0⟩, p0⟩ := pr
    intro hg ex cl r hr
    cases p0 with
    | none => rw [scanPairs_cons_none] at hr; cases hr
    | some q0 =>
      rw [scanPairs_cons_some] at hr
      by_cases hm : m glob q0 = true
      · rw [if_pos hm] at hr
        exact shrinks_trans (ih _ _ _ _ hr) (scanHashes_shrinks m glob q0 hs0 hg ex cl)
      · rw [if_neg hm] at hr
        exact ih _ _ _ _ hr

theorem scanPairs_ex_mono (m : String → String → Bool) :
    ∀ (pairs : List ((String × List String) × Option String))
      (hg : List (String × Glob)) (ex : List String) (cl : List (String × String)) r,
      scanPairs m pairs hg ex cl = some r → ∀ {x : String}, x ∈ ex → x ∈ r.2.1 := by
  intro pairs
  induction pairs with
  | nil =>
    intro hg ex cl r hr x hx
    rw [scanPairs_nil] at hr
    obtain rfl : (hg, ex, cl) = r := by injection hr
    exact hx
  | cons pr rest ih =>
    obtain ⟨⟨glob, hs0⟩, p0⟩ := pr
    intro hg ex cl r hr x hx
    cases p0 with
    | none => rw [scanPairs_cons_none] at hr; cases hr
    | some q0 =>
      rw [scanPairs_cons_some] at hr
      by_cases hm : m glob q0 = true
      · rw [if_pos hm] at hr
        exact ih _ _ _ _ hr (scanHashes_ex_mono m glob q0 hs0 hg ex cl hx)
      · rw [if_neg hm] at hr
        exact ih _ _ _ _ hr hx

theorem scanPairs_forward (m : String → String → Bool) :
    ∀ (pairs : List ((String × List String) × Option String))
      (hg : List (String × Glob)) (ex : List String) (cl : List (String × String)) r,
      scanPairs m pairs hg ex cl = some r →
      ∀ h p, tracksB hg h p = true → tracksB r.1 h p = false →
      ∃ hs0 q, ((p, hs0), some q) ∈ pairs ∧ h ∈ hs0 ∧ m p q = true ∧
        ∃ g, lookupA hg h = some g ∧ ∃ f ∈ g.exclude, m f q = true := by
  intro pairs
  induction pairs with
  | nil =>
    intro hg ex cl r hr h p htr hkill
    rw [scanPairs_nil] at hr
    obtain rfl : (hg, ex, cl) = r := by injection hr
    have hkill' : tracksB hg h p = false := hkill
    rw [htr] at hkill'; simp at hkill'
  | cons pr rest ih =>
    obtain ⟨⟨glob, hs0⟩, p0⟩ := pr
    intro hg ex cl r hr h p htr hkill
    cases p0 with
    | none => rw [scanPairs_cons_none] at hr; cases hr
    | some q0 =>
      rw [scanPairs_cons_some] at hr
      by_cases hm : m glob q0 = true
      · rw [if_pos hm] at hr
        cases htr1 : tracksB (scanHashes m glob q0 hs0 hg ex cl).1 h p with
        | true =>
          obtain ⟨hs1, q1, hpair, hmem, hmq, g1, hl1, f, hf, hmf⟩ :=
            ih _ _ _ _ hr h p htr1 hkill
          obtain ⟨g0, hl0, hex0, _⟩ := scanHashes_shrinks m glob q0 hs0 hg ex cl h g1 hl1
          exact ⟨hs1, q1, List.mem_cons_of_mem _ hpair, hmem, hmq, g0, hl0,
            f, hex0 ▸ hf, hmf⟩
        | false =>
          obtain ⟨hpg, hmemh, g, hlg, hcond⟩ :=
            scanHashes_forward m glob q0 hs0 hg ex cl h p htr htr1
          subst hpg
          exact ⟨hs0, q0, List.mem_cons_self _ _, hmemh, hm, g, hlg, hcond⟩
      · rw [if_neg hm] at hr
        obtain ⟨hs1, q1, hpair, hrest⟩ := ih _ _ _ _ hr h p htr hkill
        exact ⟨hs1, q1, List.mem_cons_of_mem _ hpair, hrest⟩

theorem scanPairs_kill (m : String → String → Bool) :
    ∀ (pairs : List ((String × List String) × Option String))
      (hg : List (String × Glob)) (ex : List String) (cl : List (String × String)) r,
      scanPairs m pairs hg ex cl = some r →
      ∀ (glob : String) (hs0 : List String) (q h : String),
        ((glob, hs0), some q) ∈ pairs → h ∈ hs0 → m glob q = true →
        excludeCond m hg h q → tracksB r.1 h glob = false := by
  intro pairs
  induction pairs with
  | nil => intro hg ex cl r hr glob hs0 q h hpair; cases hpair
  | cons pr rest ih =>
    obtain ⟨⟨glob0, hsA⟩, p0⟩ := pr
    intro hg ex cl r hr glob hs0 q h hpair hmemh hmq hcond
    cases p0 with
    | none => rw [scanPairs_cons_none] at hr; cases hr
    | some q0 =>
      rw [scanPairs_cons_some] at hr
      rcases List.mem_cons.mp hpair with heq | hpair'
      · cases heq
        rw [if_pos hmq] at hr
        have h1 : tracksB (scanHashes m glob0 q hsA hg ex cl).1 h glob0 = false :=
          scanHashes_kill m glob0 q hsA hg ex cl h hmemh hcond
        exact tracksB_false_of_shrinks (scanPairs_shrinks m rest _ _ _ r hr) h1
      · by_cases hm0 : m glob0 q0 = true
        · rw [if_pos hm0] at hr
          exact ih _ _ _ _ hr glob hs0 q h hpair' hmemh hmq
            (excludeCond_of_shrinks (scanHashes_shrinks m glob0 q0 hsA hg ex cl) hcond)
        · rw [if_neg hm0] at hr
          exact ih _ _ _ _ hr glob hs0 q h hpair' hmemh hmq hcond

theorem scanPairs_kill_pushes (m : String → String → Bool) :
    ∀ (pairs : List ((String × List String) × Option String))
      (hg : List (String × Glob)) (ex : List String) (cl : List (String × String)) r,
      scanPairs m pairs hg ex cl = some r →
      ∀ h p, tracksB hg h p = true → tracksB r.1 h p = false → p ∈ r.2.1 := by
  intro pairs
  induction pairs with
  | nil =>
    intro hg ex cl r hr h p htr hkill
    rw [scanPairs_nil] at hr
    obtain rfl : (hg, ex, cl) = r := by injection hr
    have hkill' : tracksB hg h p = false := hkill
    rw [htr] at hkill'; simp at hkill'
  | cons pr rest ih =>
    obtain ⟨⟨glob, hs0⟩, p0⟩ := pr
    intro hg ex cl r hr h p htr hkill
    cases p0 with
    | none => rw [scanPairs_cons_none] at hr; cases hr
    | some q0 =>
      rw [scanPairs_cons_some] at hr
      by_cases hm : m glob q0 = true
      · rw [if_pos hm] at hr
        cases htr1 : tracksB (scanHashes m glob q0 hs0 hg ex cl).1 h p with
        | true => exact ih _ _ _ _ hr h p htr1 hkill
        | false =>
          exact scanPairs_ex_mono m rest _ _ _ r hr
            (scanHashes_kill_pushes m glob q0 hs0 hg ex cl h p htr htr1)
      · rw [if_neg hm] at hr
        exact ih _ _ _ _ hr h p htr hkill

theorem scanPairs_keyNonempty (m : String → String → Bool) :
    ∀ (pairs : List ((String × List String) × Option String))
      (hg : List (String × Glob)) (ex : List String) (cl : List (String × String)) r,
      scanPairs m pairs hg ex cl = some r →
      ∀ {h : String}, (∀ g, lookupA hg h = some g → g.«include» ≠ []) →
      ∀ g, lookupA r.1 h = some g → g.«include» ≠ [] := by
  intro pairs
  induction pairs with
  | nil =>
    intro hg ex cl r hr h hne
    rw [scanPairs_nil] at hr
    obtain rfl : (hg, ex, cl) = r := by injection hr
    exact hne
  | cons pr rest ih =>
    obtain ⟨⟨glob, hs0⟩, p0⟩ := pr
    intro hg ex cl r hr h hne
    cases p0 with
    | none => rw [scanPairs_cons_none] at hr; cases hr
    | some q0 =>
      rw [scanPairs_cons_some] at hr
      by_cases hm : m glob q0 = true
      · rw [if_pos hm] at hr
        exact ih _ _ _ _ hr (scanHashes_keyNonempty m glob q0 hs0 hg ex cl hne)
      · rw [if_neg hm] at hr
        exact ih _ _ _ _ hr hne

theorem scanPairs_none_of_badpair (m : String → String → Bool) :
    ∀ (pairs : List ((String × List String) × Option String))
      (e : String × List String) (hg : List (String × Glob)) (ex : List String)
      (cl : List (String × String)),
      (e, (none : Option String)) ∈ pairs → scanPairs m pairs hg ex cl = none := by
  intro pairs
  induction pairs with
  | nil => intro e hg ex cl hmem; cases hmem
  | cons pr rest ih =>
    obtain ⟨⟨glob0, hsA⟩, p0⟩ := pr
    intro e hg ex cl hmem
    cases p0 with
    | none => exact scanPairs_cons_none m (glob0, hsA) rest hg ex cl
    | some q0 =>
      rcases List.mem_cons.mp hmem with heq | hmem'
      · exfalso
        injection heq with h1 h2
        cases h2
      · rw [scanPairs_cons_some]
        by_cases hm : m glob0 q0 = true
        · rw [if_pos hm]; exact ih e _ _ _ hmem'
        · rw [if_neg hm]; exact ih e _ _ _ hmem'

/-! ### Glue lemmas: pairs, paths, batch inversion, cleanup -/

theorem lookupA_unique {α : Type} {mp : List (String × α)} {k : String} {a b : α}
    (h1 : lookupA mp k = some a) (h2 : lookupA mp k = some b) : a = b := by
  rw [h1] at h2; injection h2

theorem mem_statusPairs {e : String × List String} {p : Option String} :
    ∀ (gs : List (String × List String)) (rels : List (Option String)),
      (e, p) ∈ statusPairs gs rels ↔ e ∈ gs ∧ p ∈ rels := by
  intro gs
  induction gs with
  | nil => intro rels; simp [statusPairs]
  | cons e0 rest ih =>
    intro rels
    simp only [statusPairs, List.mem_append, List.mem_map, List.mem_cons]
    constructor
    · rintro (⟨p1, hp1, heq⟩ | hmem)
      · injection heq with h1 h2
        exact ⟨Or.inl h1.symm, h2 ▸ hp1⟩
      · obtain ⟨hm1, hm2⟩ := (ih rels).mp hmem
        exact ⟨Or.inr hm1, hm2⟩
    · rintro ⟨he | he, hp⟩
      · exact Or.inl ⟨p, hp, by rw [he]⟩
      · exact Or.inr ((ih rels).mpr ⟨he, hp⟩)

theorem some_mem_relPathsOf_iff {paths : List EventPath} {q : String} :
    some q ∈ relPathsOf paths ↔ q ∈ relStrings paths := by
  unfold relPathsOf relStrings
  rw [List.mem_filterMap, List.mem_filterMap]
  constructor
  · rintro ⟨a, ha, heq⟩
    cases a with
    | outside => exact Option.noConfusion heq
    | rel s =>
      injection heq with h1
      injection h1 with h2
      subst h2
      exact ⟨EventPath.rel s, ha, rfl⟩
    | relNonUtf8 =>
      injection heq with h1
      exact Option.noConfusion h1
  · rintro ⟨a, ha, heq⟩
    cases a with
    | outside => exact Option.noConfusion heq
    | rel s =>
      injection heq with h2
      subst h2
      exact ⟨EventPath.rel s, ha, rfl⟩
    | relNonUtf8 => exact Option.noConfusion heq

theorem none_mem_relPathsOf {paths : List EventPath}
    (h : EventPath.relNonUtf8 ∈ paths) : (none : Option String) ∈ relPathsOf paths := by
  induction paths with
  | nil => cases h
  | cons p0 rest ih =>
    rcases List.mem_cons.mp h with heq | hmem
    · rw [← heq]
      simp [relPathsOf, List.filterMap_cons]
    · cases p0 with
      | outside => simpa [relPathsOf, List.filterMap_cons] using ih hmem
      | rel s => simpa [relPathsOf, List.filterMap_cons] using ih hmem
      | relNonUtf8 => simp [relPathsOf, List.filterMap_cons]

theorem processBatch_inv {m : String → String → Bool} {st st' : HashGlobWatcher}
    {paths : List EventPath} {cmds : List Cmd}
    (hrun : processBatch m st paths = some (st', cmds)) :
    ∃ r, scanPairs m (statusPairs st.glob_status (relPathsOf paths)) st.hash_globs [] []
        = some r ∧ st'.hash_globs = r.1 ∧
        st'.glob_status = clearGlobStatus st.glob_status r.2.2 ∧
        cmds = r.2.1.map Cmd.exclude_pattern := by
  unfold processBatch at hrun
  rw [Option.map_eq_some'] at hrun
  obtain ⟨r, hscan, heq⟩ := hrun
  injection heq with h1 h2
  refine ⟨r, hscan, ?_, ?_, h2.symm⟩
  · rw [← h1]
  · rw [← h1]

theorem shrinksS_refl (gs : List (String × List String)) : shrinksS gs gs :=
  fun _ s hl => ⟨s, hl, fun _ hx => hx⟩

theorem shrinksS_trans {gs3 gs2 gs1 : List (String × List String)}
    (h32 : shrinksS gs3 gs2) (h21 : shrinksS gs2 gs1) : shrinksS gs3 gs1 := by
  intro k s' hl
  obtain ⟨s2, hl2, hsub2⟩ := h32 k s' hl
  obtain ⟨s1, hl1, hsub1⟩ := h21 k s2 hl2
  exact ⟨s1, hl1, fun x hx => hsub1 x (hsub2 x hx)⟩

theorem shrinksS_removeA (gs : List (String × List String)) (k : String) :
    shrinksS (removeA gs k) gs := by
  intro k' s' hl
  by_cases hk : k = k'
  · subst hk; rw [lookupA_removeA_self] at hl; cases hl
  · rw [lookupA_removeA_ne _ _ _ hk] at hl; exact ⟨s', hl, fun _ hx => hx⟩

theorem shrinksS_insertA (gs : List (String × List String)) (k : String)
    (v : List String) {s0 : List String} (hl : lookupA gs k = some s0)
    (hsub : ∀ x ∈ v, x ∈ s0) : shrinksS (insertA gs k v) gs := by
  intro k' s' hl'
  by_cases hk : k = k'
  · subst hk
    rw [lookupA_insertA_self] at hl'
    obtain rfl : v = s' := by injection hl'
    exact ⟨s0, hl, hsub⟩
  · rw [lookupA_insertA_ne _ _ _ _ hk] at hl'
    exact ⟨s', hl', fun _ hx => hx⟩

theorem clearStep_eq_none {gs : List (String × List String)} {hash glob : String}
    (hl : lookupA gs hash = none) : clearStep gs hash glob = gs := by
  unfold clearStep; rw [hl]

theorem clearStep_eq_some {gs : List (String × List String)} {hash glob : String}
    {s : List String} (hl : lookupA gs hash = some s) :
    clearStep gs hash glob =
      if (s.filter fun y => decide (y ≠ glob)).isEmpty then removeA gs hash
      else insertA gs hash (s.filter fun y => decide (y ≠ glob)) := by
  unfold clearStep; rw [hl]

theorem clearStep_shrinksS (gs : List (String × List String)) (hash glob : String) :
    shrinksS (clearStep gs hash glob) gs := by
  cases hl : lookupA gs hash with
  | none => rw [clearStep_eq_none hl]; exact shrinksS_refl gs
  | some s =>
    rw [clearStep_eq_some hl]
    split_ifs with he
    · exact shrinksS_removeA gs hash
    · exact shrinksS_insertA gs hash _ hl (fun x hx => (List.mem_filter.mp hx).1)

theorem clearGlobStatus_shrinksS :
    ∀ (cl : List (String × String)) (gs : List (String × List String)),
      shrinksS (clearGlobStatus gs cl) gs := by
  intro cl
  induction cl with
  | nil => intro gs; exact shrinksS_refl gs
  | cons pr rest ih =>
    obtain ⟨hash, glob⟩ := pr
    intro gs
    exact shrinksS_trans (ih _) (clearStep_shrinksS gs hash glob)

/-! ### Claim theorems -/

/-- Claim C1 (code bug): registering `h1` with include `{dist/*.css}` is
required to create `glob_status["dist/*.css"]` containing `h1`; instead the
code (mod.rs line 146) keys `glob_status` by the hash and stores the include
patterns as members, so `glob_status["dist/*.css"]` does not exist and
`glob_status["h1"]` holds the pattern. -/
theorem C1_register_keys_glob_status_by_hash :
    lookupA (watch_globs emptyW "h1" ["dist/*.css"] []).glob_status "dist/*.css" = none ∧
    lookupA (watch_globs emptyW "h1" ["dist/*.css"] []).glob_status "h1" =
      some ["dist/*.css"] := by decide

/-- Claim C2 (code bug): already after the single call
`watch_globs("h1", {dist/*.css}, {})` the bidirectional-consistency invariant
I1 fails: `h1` tracks `dist/*.css` in `hash_globs`, but `h1` is not a member
of `glob_status["dist/*.css"]` (that entry does not even exist). -/
theorem C2_invariant_I1_violated_after_one_register :
    tracksB (watch_globs emptyW "h1" ["dist/*.css"] []).hash_globs "h1" "dist/*.css" = true ∧
    lookupA (watch_globs emptyW "h1" ["dist/*.css"] []).glob_status "dist/*.css" = none := by
  decide

/-- Claim C3 (code bug): in the spec's end-to-end scenario (register `h1`
with include `{dist/*.css}` / exclude `{dist/build.log}`, then deliver the
batch `{dist/build.log}`) the query must return the empty set; the code
retires nothing — the batch scan matches `glob_status` keys (here the hash
`h1`) against the changed path, not the patterns — and the query returns
`{dist/*.css}` unchanged. -/
theorem C3_end_to_end_scenario_not_retired :
    processBatch globMatch stC3 [EventPath.rel "dist/build.log"] = some (stC3, []) ∧
    changed_globs stC3 "h1" ["dist/*.css"] = ["dist/*.css"] := by decide

/-- Claim C9: `changed_globs` on a hash with no `hash_globs` entry (never
registered or fully retired) returns the candidate set unchanged (mod.rs
line 167). -/
theorem C9_unknown_hash_returns_candidates (st : HashGlobWatcher) (h : String)
    (cands : List String) (habs : lookupA st.hash_globs h = none) :
    changed_globs st h cands = cands := by
  simp [changed_globs, habs]

/-- Claim C9, witness: a never-registered hash on the empty watcher. -/
theorem C9_witness : changed_globs emptyW "nope" ["a", "b"] = ["a", "b"] :=
  C9_unknown_hash_returns_candidates emptyW "nope" ["a", "b"] (by decide)

/-- Claim C8: re-registering a hash replaces its `GlobSet` in `hash_globs`
with the newly supplied include and exclude sets (mod.rs line 149), while its
`glob_status` entries are only extended, never cleared (line 146): every
membership present before the second call is still present after it. -/
theorem C8_reregistration_replaces_globset_extends_status
    (st : HashGlobWatcher) (h : String) (i1 e1 i2 e2 : List String) :
    lookupA (watch_globs (watch_globs st h i1 e1) h i2 e2).hash_globs h = some ⟨i2, e2⟩ ∧
    (∀ k s x, lookupA (watch_globs st h i1 e1).glob_status k = some s → x ∈ s →
      ∃ s', lookupA (watch_globs (watch_globs st h i1 e1) h i2 e2).glob_status k = some s' ∧
        x ∈ s') := by
  constructor
  · exact lookupA_insertA_self _ _ _
  · intro k s x hs hx
    by_cases hk : h = k
    · subst hk
      refine ⟨extendS (lookupD (watch_globs st h i1 e1).glob_status h) i2, ?_, ?_⟩
      · exact lookupA_insertA_self _ _ _
      · have : lookupD (watch_globs st h i1 e1).glob_status h = s := by
          simp [lookupD, hs]
        rw [this]
        exact mem_extendS_left i2 hx
    · refine ⟨s, ?_, hx⟩
      rw [show (watch_globs (watch_globs st h i1 e1) h i2 e2).glob_status =
            insertA (watch_globs st h i1 e1).glob_status h
              (extendS (lookupD (watch_globs st h i1 e1).glob_status h) i2) from rfl]
      rw [lookupA_insertA_ne _ _ _ _ hk]
      exact hs

/-- Claim C8, witness: `h1` re-registered with include `{b}` after `{a}`;
the `GlobSet` is replaced and the old `glob_status` membership survives. -/
theorem C8_witness :
    lookupA (watch_globs (watch_globs emptyW "h1" ["a"] []) "h1" ["b"] ["e"]).hash_globs "h1" =
      some ⟨["b"], ["e"]⟩ ∧
    ∃ s', lookupA (watch_globs (watch_globs emptyW "h1" ["a"] []) "h1" ["b"] ["e"]).glob_status
        "h1" = some s' ∧ "a" ∈ s' :=
  ⟨(C8_reregistration_replaces_globset_extends_status emptyW "h1" ["a"] [] ["b"] ["e"]).1,
   (C8_reregistration_replaces_globset_extends_status emptyW "h1" ["a"] [] ["b"] ["e"]).2
     "h1" ["a"] "a" (by decide) (by decide)⟩

/-- Claim C5, counterexample: a relative changed path that is not valid UTF-8
is not skipped; with at least one `glob_status` entry present the batch scan
panics (`path.to_str().unwrap()`, mod.rs line 87), modelled by `none`. -/
theorem C5_counterexample :
    processBatch globMatch stC5 [EventPath.relNonUtf8] = none := by decide

/-- Claim C6, counterexample: pattern `g1` is tracked by the two distinct
hashes `h` and `h2`; delivering the batch `{g1}` makes hash `h` retire `g1`
and immediately emits the unsubscribe command `exclude g1` (mod.rs lines
108, 127-129) although `h2` still has `g1` in its include set. -/
theorem C6_counterexample :
    tracksB stC6.hash_globs "h" "g1" = true ∧
    tracksB stC6.hash_globs "h2" "g1" = true ∧
    processBatch globMatch stC6 [EventPath.rel "g1"] =
      some (stC6after, [Cmd.exclude_pattern "g1"]) ∧
    tracksB stC6after.hash_globs "h2" "g1" = true := by decide

/-- Claim C4: during one change batch, a pattern `p` is removed from a
tracked hash's include set exactly when some `glob_status` entry keyed `p`
contains the hash and some relative changed path of the batch matches `p`
and also matches at least one pattern of the hash's exclude set (mod.rs
lines 83-105); and a hash entry whose include set empties is deleted, so a
surviving entry always keeps a non-empty include set. -/
theorem C4_retirement_iff (m : String → String → Bool) (st st' : HashGlobWatcher)
    (paths : List EventPath) (cmds : List Cmd)
    (hrun : processBatch m st paths = some (st', cmds))
    (h p : String) (g0 : Glob)
    (hg0 : lookupA st.hash_globs h = some g0) (hp : p ∈ g0.«include») :
    (tracksB st'.hash_globs h p = false ↔
      ∃ e ∈ st.glob_status, e.1 = p ∧ h ∈ e.2 ∧
        ∃ q ∈ relStrings paths, m p q = true ∧ ∃ f ∈ g0.exclude, m f q = true) ∧
    (∀ g', lookupA st'.hash_globs h = some g' → g'.«include» ≠ []) := by
  obtain ⟨r, hscan, hh, hgs, hcmds⟩ := processBatch_inv hrun
  have htr : tracksB st.hash_globs h p = true := tracksB_true_iff.mpr ⟨g0, hg0, hp⟩
  constructor
  · constructor
    · intro hkill
      rw [hh] at hkill
      obtain ⟨hs0, q, hpair, hmemh, hmq, g, hlg, f, hf, hmf⟩ :=
        scanPairs_forward m _ _ _ _ r hscan h p htr hkill
      obtain ⟨hegs, hq⟩ := (mem_statusPairs _ _).mp hpair
      obtain rfl : g = g0 := lookupA_unique hlg hg0
      exact ⟨(p, hs0), hegs, rfl, hmemh, q, some_mem_relPathsOf_iff.mp hq, hmq, f, hf, hmf⟩
    · rintro ⟨⟨e1, e2⟩, hegs, he1, hmemh, q, hq, hmq, f, hf, hmf⟩
      have he1' : e1 = p := he1
      subst he1'
      rw [hh]
      refine scanPairs_kill m _ _ _ _ r hscan e1 e2 q h ?_ hmemh hmq ?_
      · exact (mem_statusPairs _ _).mpr ⟨hegs, some_mem_relPathsOf_iff.mpr hq⟩
      · intro g hlg
        obtain rfl : g = g0 := lookupA_unique hlg hg0
        exact ⟨f, hf, hmf⟩
  · intro g' hlg'
    rw [hh] at hlg'
    refine scanPairs_keyNonempty m _ _ _ _ r hscan ?_ g' hlg'
    intro g hlg
    obtain rfl : g = g0 := lookupA_unique hlg hg0
    intro hnil
    rw [hnil] at hp
    cases hp

/-- Claim C4, witness: the theorem instantiated on the end-to-end scenario
state, where no retirement condition holds and nothing is removed. -/
theorem C4_witness :
    (tracksB stC3.hash_globs "h1" "dist/*.css" = false ↔
      ∃ e ∈ stC3.glob_status, e.1 = "dist/*.css" ∧ "h1" ∈ e.2 ∧
        ∃ q ∈ relStrings [EventPath.rel "dist/build.log"],
          globMatch "dist/*.css" q = true ∧
          ∃ f ∈ (⟨["dist/*.css"], ["dist/build.log"]⟩ : Glob).exclude,
            globMatch f q = true) ∧
    (∀ g', lookupA stC3.hash_globs "h1" = some g' → g'.«include» ≠ []) :=
  C4_retirement_iff globMatch stC3 stC3 [EventPath.rel "dist/build.log"] []
    (by decide) "h1" "dist/*.css" ⟨["dist/*.css"], ["dist/build.log"]⟩
    (by decide) (by decide)

/-- Claim C5 (amended): a changed path outside the watched root is dropped
and batch processing continues unchanged; but a relative path not
representable as text panics the scan (`to_str().unwrap()`, mod.rs line 87)
whenever `glob_status` has at least one entry. -/
theorem C5_amended_paths (m : String → String → Bool) (st : HashGlobWatcher) :
    (∀ pre post, processBatch m st (pre ++ EventPath.outside :: post) =
        processBatch m st (pre ++ post)) ∧
    (∀ paths, st.glob_status ≠ [] → EventPath.relNonUtf8 ∈ paths →
        processBatch m st paths = none) := by
  constructor
  · intro pre post
    unfold processBatch
    have hrel : relPathsOf (pre ++ EventPath.outside :: post) =
        relPathsOf (pre ++ post) := by
      simp [relPathsOf, List.filterMap_append, List.filterMap_cons]
    rw [hrel]
  · intro paths hne hmem
    unfold processBatch
    cases hgs : st.glob_status with
    | nil => exact absurd hgs hne
    | cons e0 rest =>
      have hbad : (e0, (none : Option String)) ∈
          statusPairs (e0 :: rest) (relPathsOf paths) :=
        (mem_statusPairs _ _).mpr ⟨List.mem_cons_self _ _, none_mem_relPathsOf hmem⟩
      rw [scanPairs_none_of_badpair m _ e0 _ _ _ hbad]
      rfl

/-- Claim C5 (amended), witness: dropping an out-of-root path leaves the
batch result unchanged, and a non-UTF-8 path panics on `stC5`. -/
theorem C5_amended_witness :
    processBatch globMatch stC5 ([EventPath.rel "a"] ++ EventPath.outside :: []) =
      processBatch globMatch stC5 ([EventPath.rel "a"] ++ []) ∧
    processBatch globMatch stC5 [EventPath.relNonUtf8] = none :=
  ⟨(C5_amended_paths globMatch stC5).1 [EventPath.rel "a"] [],
   (C5_amended_paths globMatch stC5).2 [EventPath.relNonUtf8] (by decide) (by decide)⟩

/-- Claim C6 (amended): whenever a batch retires pattern `p` from any hash
`h` (the hash tracked `p` before the batch and no longer does after it), an
exclude command for `p` is emitted in that same batch (mod.rs lines 108,
127-129) — even if another hash still has `p` in its include set, as
`C6_counterexample` exhibits. -/
theorem C6_amended_exclude_on_any_retirement (m : String → String → Bool)
    (st st' : HashGlobWatcher) (paths : List EventPath) (cmds : List Cmd)
    (hrun : processBatch m st paths = some (st', cmds)) (h p : String)
    (hbefore : tracksB st.hash_globs h p = true)
    (hafter : tracksB st'.hash_globs h p = false) :
    Cmd.exclude_pattern p ∈ cmds := by
  obtain ⟨r, hscan, hh, hgs, hcmds⟩ := processBatch_inv hrun
  rw [hh] at hafter
  rw [hcmds]
  exact List.mem_map.mpr
    ⟨p, scanPairs_kill_pushes m _ _ _ _ r hscan h p hbefore hafter, rfl⟩

/-- Claim C6 (amended), witness: in the `stC6` scenario hash `h` retires
`g1` and the exclude command for `g1` is emitted in the same batch. -/
theorem C6_amended_witness :
    Cmd.exclude_pattern "g1" ∈ [Cmd.exclude_pattern "g1"] :=
  C6_amended_exclude_on_any_retirement globMatch stC6 stC6after
    [EventPath.rel "g1"] [Cmd.exclude_pattern "g1"] (by decide) "h" "g1"
    (by decide) (by decide)

/-- Claim C7 (amended): registration with a non-empty include set and batch
processing both preserve the invariant that every `hash_globs` entry has a
non-empty include set (an entry emptied during a batch is deleted at once,
mod.rs lines 103-105); registration with an empty include set breaks it
(`C7_counterexample`). -/
theorem C7_amended_nonempty_preserved (m : String → String → Bool)
    (st : HashGlobWatcher) :
    (∀ hash inc exc, allNonempty st.hash_globs → inc ≠ [] →
      allNonempty (watch_globs st hash inc exc).hash_globs) ∧
    (∀ paths st' cmds, allNonempty st.hash_globs →
      processBatch m st paths = some (st', cmds) → allNonempty st'.hash_globs) := by
  constructor
  · intro hash inc exc hall hinc h g hl
    by_cases hk : hash = h
    · subst hk
      rw [show (watch_globs st hash inc exc).hash_globs =
            insertA st.hash_globs hash ⟨inc, exc⟩ from rfl, lookupA_insertA_self] at hl
      obtain rfl : (⟨inc, exc⟩ : Glob) = g := by injection hl
      exact hinc
    · rw [show (watch_globs st hash inc exc).hash_globs =
            insertA st.hash_globs hash ⟨inc, exc⟩ from rfl,
          lookupA_insertA_ne _ _ _ _ hk] at hl
      exact hall h g hl
  · intro paths st' cmds hall hrun
    obtain ⟨r, hscan, hh, _, _⟩ := processBatch_inv hrun
    intro h g hl
    rw [hh] at hl
    exact scanPairs_keyNonempty m _ _ _ _ r hscan (fun g' hl' => hall h g' hl') g hl

/-- Claim C7 (amended), witness: a registration with non-empty include set
on the empty watcher keeps every entry's include set non-empty. -/
theorem C7_amended_witness :
    allNonempty (watch_globs emptyW "h1" ["a"] []).hash_globs :=
  (C7_amended_nonempty_preserved globMatch emptyW).1 "h1" ["a"] []
    (fun h g hl => by simp [emptyW, lookupA] at hl) (by decide)

/-- Claim C10: one change batch only shrinks the tracking index — every
surviving `hash_globs` entry existed before with the same exclude set and a
superset include set, every surviving `glob_status` entry existed before
with a superset member set — and the commands it emits are exclude
(unsubscribe) commands only (mod.rs lines 67-130). -/
theorem C10_batch_only_shrinks (m : String → String → Bool)
    (st st' : HashGlobWatcher) (paths : List EventPath) (cmds : List Cmd)
    (hrun : processBatch m st paths = some (st', cmds)) :
    (∀ h g', lookupA st'.hash_globs h = some g' →
      ∃ g, lookupA st.hash_globs h = some g ∧ g'.exclude = g.exclude ∧
        ∀ x ∈ g'.«include», x ∈ g.«include») ∧
    (∀ k s', lookupA st'.glob_status k = some s' →
      ∃ s, lookupA st.glob_status k = some s ∧ ∀ x ∈ s', x ∈ s) ∧
    (∀ c ∈ cmds, ∃ g, c = Cmd.exclude_pattern g) := by
  obtain ⟨r, hscan, hh, hgs, hcmds⟩ := processBatch_inv hrun
  refine ⟨?_, ?_, ?_⟩
  · rw [hh]
    exact scanPairs_shrinks m _ _ _ _ r hscan
  · rw [hgs]
    exact clearGlobStatus_shrinksS r.2.2 st.glob_status
  · rw [hcmds]
    intro c hc
    obtain ⟨g, _, hgc⟩ := List.mem_map.mp hc
    exact ⟨g, hgc.symm⟩

/-- Claim C10, witness: the shrink property instantiated on the end-to-end
scenario batch, at hash `h1`. -/
theorem C10_witness :
    ∃ g, lookupA stC3.hash_globs "h1" = some g ∧
      (⟨["dist/*.css"], ["dist/build.log"]⟩ : Glob).exclude = g.exclude ∧
      ∀ x ∈ (⟨["dist/*.css"], ["dist/build.log"]⟩ : Glob).«include», x ∈ g.«include» :=
  (C10_batch_only_shrinks globMatch stC3 stC3 [EventPath.rel "dist/build.log"] []
    (by decide)).1 "h1" ⟨["dist/*.css"], ["dist/build.log"]⟩ (by decide)

/-- Claim C7, counterexample: registering a hash with an empty include set
does not leave the hash absent; `watch_globs` inserts the entry
unconditionally (mod.rs line 149), so `h1` is present in `hash_globs` with an
empty include set, and an empty `glob_status` entry is created (line 146). -/
theorem C7_counterexample :
    lookupA (watch_globs emptyW "h1" [] ["e"]).hash_globs "h1" = some ⟨[], ["e"]⟩ ∧
    lookupA (watch_globs emptyW "h1" [] ["e"]).glob_status "h1" = some [] := by decide

end GlobWatcher
